import Mathlib

/-!
Verification of the word-race repository: the React client
(src/client/src/App.jsx) embedded shallowly, plus the server-side
feedback engine and typing relay modelled from spec.md (the server
source is not part of src/; only the client is).

Conventions: JS strings are Lean `String`s (lists of chars where the
per-character structure matters), JS array-index maps are explicit
indexed recursions, and socket emissions are returned values.
-/

namespace WordRace

/-- Protocol constant from App.jsx line 5 and spec.md section 6. -/
def WORD_LEN : Nat := 5

/-- Protocol constant from App.jsx line 6 and spec.md section 6. -/
def MAX_GUESSES : Nat := 6

/-- Feedback marks GREEN / YELLOW / GRAY (spec.md section 4.1; the wire encoding
uses the letters g, y, b). -/
inductive Mark
  | G
  | Y
  | B
deriving DecidableEq, Repr, BEq

/-- Modelled from the spec: pass 1 of the Feedback Engine (spec.md section 4.1,
absent from src/). Walks guess and target in lockstep; an exact match records
`true` and consumes one occurrence of that letter from the remaining-count
table, a mismatch records `false` and leaves the table alone. Returns the
per-index exact-match flags together with the remaining-count table. -/
def pass1 : List Char → List Char → (Char → Nat) → List Bool × (Char → Nat)
  | g :: gs, t :: ts, counts =>
    if g = t then
      let r := pass1 gs ts fun x => if x = g then counts x - 1 else counts x
      (true :: r.1, r.2)
    else
      let r := pass1 gs ts counts
      (false :: r.1, r.2)
  | _, _, counts => ([], counts)

/-- Modelled from the spec: pass 2 of the Feedback Engine (spec.md section 4.1,
absent from src/). Each position carries its guess letter and its pass-1
exact-match flag: GREEN if exact, else YELLOW while the letter has remaining
count (decrementing it), else GRAY. -/
def pass2 : List (Char × Bool) → (Char → Nat) → List Mark
  | [], _ => []
  | (c, isGreen) :: rest, counts =>
    if isGreen then Mark.G :: pass2 rest counts
    else if counts c > 0 then
      Mark.Y :: pass2 rest fun x => if x = c then counts x - 1 else counts x
    else Mark.B :: pass2 rest counts

/-- Modelled from the spec: the Feedback Engine contract
`feedback(guess, target)` (spec.md section 4.1, absent from src/): two passes
over a remaining-count table initialized from the target's letter multiset. -/
def feedback (guess target : List Char) : List Mark :=
  let r := pass1 guess target fun c => target.count c
  pass2 (guess.zip r.1) r.2

/-- Number of GREEN-or-YELLOW marks assigned to occurrences of letter `L` of
the guess, pairing each guess letter with its mark. -/
def gyCount (guess : List Char) (fb : List Mark) (L : Char) : Nat :=
  (guess.zip fb).countP fun p => p.1 == L && (p.2 == Mark.G || p.2 == Mark.Y)

/-- One board row of the client (App.jsx lines 47-52): the guessed word and
the feedback color letters (g, y, b) received for it. -/
structure BoardRow where
  guess : String
  fb : List Char
deriving DecidableEq, Repr

/-- The initial board of App.jsx lines 47-52: MAX_GUESSES rows, each with empty
guess and empty feedback. -/
def emptyBoard : List BoardRow :=
  List.replicate MAX_GUESSES ⟨"", []⟩

/-- The client-side state that the socket handlers of App.jsx read and write:
own board, opponent board, status message, input field, opponent typing
length (lines 47-59). -/
structure ClientState where
  board : List BoardRow
  otherBoard : List BoardRow
  status : String
  input : String
  otherTyping : Nat
deriving DecidableEq, Repr

/-- Payload of a guess:result event (spec.md section 6, App.jsx lines 91-102). -/
structure GuessResult where
  sid : String
  row : Nat
  guess : String
  feedback : List Char
  winnerSid : Option String
deriving DecidableEq, Repr

/-- Indexed helper for the JS `prev.map((r, i) => (i === row ? entry : r))`
of App.jsx lines 95 and 97; `i` is the index of the first element of `rows`. -/
def setRowGo (row : Nat) (entry : BoardRow) : Nat → List BoardRow → List BoardRow
  | _, [] => []
  | i, r :: rs => (if i = row then entry else r) :: setRowGo row entry (i + 1) rs

/-- The row replacement performed by the guess:result handler on a board. -/
def setRow (rows : List BoardRow) (row : Nat) (entry : BoardRow) : List BoardRow :=
  setRowGo row entry 0 rows

/-- The guess:result handler of App.jsx lines 91-102: replace the row of the
own board when the event's sid is the client's own socket id, of the opponent
board otherwise; the status write is guarded by `if (payload.winnerSid)`, a JS
truthiness test, so an absent winnerSid and the falsy empty string both skip
it. -/
def onGuessResult (ownSid : String) (p : GuessResult) (st : ClientState) : ClientState :=
  let entry : BoardRow := ⟨p.guess, p.feedback⟩
  let st1 :=
    if p.sid = ownSid then { st with board := setRow st.board p.row entry }
    else { st with otherBoard := setRow st.otherBoard p.row entry }
  match p.winnerSid with
  | some w =>
    if w = "" then st1
    else { st1 with status := if w = ownSid then "You win! 🎉" else "They win! 😤" }
  | none => st1

/-- The room:reset handler of App.jsx lines 113-123: fresh empty boards, empty
status, empty input. -/
def onRoomReset (st : ClientState) : ClientState :=
  { st with board := emptyBoard, otherBoard := emptyBoard, status := "", input := "" }

/-- JS `String.prototype.toUpperCase` restricted to the basic latin range, as
used on the solution string in App.jsx line 110. -/
def jsToUpper (s : String) : String :=
  ⟨s.data.map Char.toUpper⟩

/-- The room:finished handler of App.jsx lines 109-111: the guard is
`if (!winnerSid)`, a JS falsiness test, so an absent winnerSid and the falsy
empty string both set the draw status with the upper-cased solution; any
other winnerSid leaves the state alone. -/
def onRoomFinished (solution : String) (winnerSid : Option String) (st : ClientState) :
    ClientState :=
  match winnerSid with
  | none => { st with status := "Draw. Solution: " ++ jsToUpper solution }
  | some w =>
    if w = "" then { st with status := "Draw. Solution: " ++ jsToUpper solution }
    else st

/-- The typing:update handler of App.jsx lines 87-89: store the received
length as the opponent typing progress. -/
def onTypingUpdate (len : Nat) (st : ClientState) : ClientState :=
  { st with otherTyping := len }

/-- Payload of the typing event the client emits (App.jsx line 131). -/
structure TypingPayload where
  length : Nat
deriving DecidableEq, Repr

/-- The emission of App.jsx lines 129-132: on every input change the client
emits `typing` with exactly the current input length. -/
def typingPayload (input : String) : TypingPayload :=
  ⟨input.length⟩

/-- The input sanitizer of App.jsx lines 202-208:
`e.target.value.replace(/[^a-zA-Z]/g, '').slice(0, WORD_LEN).toLowerCase()`. -/
def sanitizeInput (raw : String) : String :=
  ⟨((raw.data.filter Char.isAlpha).take WORD_LEN).map Char.toLower⟩

/-- The part of the client state that decides guess emission: role flag
(room:hello, App.jsx lines 70-73) and input field. -/
structure GuessClient where
  isPlayer : Bool
  input : String
deriving DecidableEq, Repr

/-- Initial client: not a player, empty input (App.jsx lines 44 and 54). -/
def initClient : GuessClient :=
  ⟨false, ""⟩

/-- The client events that touch the role flag or the input field. -/
inductive ClientEvent
  | hello (youArePlayer : Bool)
  | inputChange (raw : String)
  | submitGuess
  | roomReset
deriving DecidableEq, Repr

/-- One client step; the optional result is the word of an emitted guess
event. hello is App.jsx lines 70-73; inputChange is the sanitizer of lines
202-208; submitGuess is lines 134-139 (emit only when a player and the input
has length WORD_LEN, then clear the input); roomReset clears the input
(line 121). -/
def clientStep : GuessClient → ClientEvent → GuessClient × Option String
  | st, .hello b => ({ st with isPlayer := b }, none)
  | st, .inputChange raw => ({ st with input := sanitizeInput raw }, none)
  | st, .submitGuess =>
    if st.isPlayer && st.input.length == WORD_LEN then
      ({ st with input := "" }, some st.input)
    else (st, none)
  | st, .roomReset => ({ st with input := "" }, none)

/-- States the client can reach from the initial state via any event
sequence. -/
inductive ClientReachable : GuessClient → Prop
  | init : ClientReachable initClient
  | step (st : GuessClient) (e : ClientEvent) (h : ClientReachable st) :
      ClientReachable (clientStep st e).1

/-- The cell background class of App.jsx lines 8-24; a missing feedback entry
(JS undefined, modelled none) falls through to the default class. -/
def cellClass (state : Option Char) : String :=
  if state = some 'g' then "bg-green-600"
  else if state = some 'y' then "bg-yellow-600"
  else if state = some 'b' then "bg-slate-700"
  else "bg-slate-800"

/-- JS `ch.trim()` for a single character taken from a padded guess. -/
def trimChar (ch : Char) : String :=
  if ch = ' ' then "" else String.singleton ch

/-- JS `guess.padEnd(WORD_LEN, ' ').split('')` of App.jsx line 27. -/
def padEndChars (s : String) (n : Nat) : List Char :=
  s.data ++ List.replicate (n - s.data.length) ' '

/-- The Row component of App.jsx lines 26-37: pad the guess to WORD_LEN, pad
the feedback with nulls to WORD_LEN, render one (letter text, cell class) pair
per letter. -/
def renderRow (guess : String) (fb : List Char) : List (String × String) :=
  let letters := padEndChars guess WORD_LEN
  let fbp := fb.map some ++ List.replicate (WORD_LEN - fb.length) (none : Option Char)
  (List.range letters.length).map fun i =>
    (trimChar (letters.getD i ' '), cellClass (fbp.getD i none))

/-- The opponent section of App.jsx lines 234-240: every opponent row is
rendered with the constant guess string " ", only its feedback colors. -/
def renderOpponentBoard (ob : List BoardRow) : List (List (String × String)) :=
  ob.map fun r => renderRow " " r.fb

/-- Modelled from the spec: the server-side room roster (spec.md section 3,
absent from src/) as far as the typing relay needs it: connected members and
the at-most-two players. -/
structure ServerRoom where
  members : List String
  players : List String
deriving DecidableEq, Repr

/-- Modelled from the spec: Room State `typingProgress` plus the Session
Coordinator typing relay (spec.md sections 4.2 and 4.4, absent from src/): a
player's update is broadcast as (recipient, length) pairs to the room minus
the sender; a non-player's update is ignored and must not affect player
state. Returns the room afterwards and the outbound messages. -/
def typingProgress (room : ServerRoom) (sid : String) (len : Nat) :
    ServerRoom × List (String × Nat) :=
  if sid ∈ room.players then
    (room, (room.members.filter fun m => m ≠ sid).map fun m => (m, len))
  else (room, [])

/-- Effect of a typing broadcast on one participant: apply the typing:update
handler for every message addressed to that participant, in order. -/
def deliverTyping (msgs : List (String × Nat)) (p : String) (st : ClientState) : ClientState :=
  (msgs.filter fun m => m.1 = p).foldl (fun s m => onTypingUpdate m.2 s) st

/-- The roomId initialization of App.jsx lines 40-42:
`new URLSearchParams(window.location.search).get('room') || 'lobby'`. `none`
models an absent parameter (JS null); the JS `||` also replaces a present but
empty parameter value, since the empty string is falsy. -/
def initRoomId (roomParam : Option String) : String :=
  match roomParam with
  | none => "lobby"
  | some s => if s = "" then "lobby" else s

/-- The room_join emission of App.jsx lines 66-68: on connect the client emits
room_join carrying the initialized roomId. -/
def roomJoinPayload (roomParam : Option String) : String :=
  initRoomId roomParam

theorem u32_le_iff_toNat_le (a b : UInt32) : (a ≤ b) ↔ a.toNat ≤ b.toNat := by
  simp [UInt32.le_def, BitVec.le_def, UInt32.toNat]

theorem char_toNat_ofNat_valid (m : Nat) (h1 : 97 ≤ m) (h2 : m ≤ 122) :
    (Char.ofNat m).val.toNat = m := by
  have hv : m.isValidChar := Or.inl (by omega)
  simp [Char.ofNat, hv, Char.toNat, UInt32.toNat, Char.ofNatAux]

theorem isLower_toLower (c : Char) (h : c.isAlpha = true) : (c.toLower).isLower = true := by
  rw [Char.isAlpha, Bool.or_eq_true] at h
  rcases h with h | h
  · rw [Char.isUpper, Bool.and_eq_true] at h
    obtain ⟨h1, h2⟩ := h
    have g1 : (65 : UInt32) ≤ c.val := of_decide_eq_true h1
    have g2 : c.val ≤ (90 : UInt32) := of_decide_eq_true h2
    rw [u32_le_iff_toNat_le] at g1 g2
    have hn1 : 65 ≤ c.toNat := g1
    have hn2 : c.toNat ≤ 90 := g2
    rw [Char.toLower]
    rw [if_pos (by exact ⟨hn1, hn2⟩)]
    rw [Char.isLower, Bool.and_eq_true]
    have ht : (Char.ofNat (c.toNat + 32)).val.toNat = c.toNat + 32 :=
      char_toNat_ofNat_valid _ (by omega) (by omega)
    have e97 : (97 : UInt32).toNat = 97 := rfl
    have e122 : (122 : UInt32).toNat = 122 := rfl
    constructor
    · apply decide_eq_true
      rw [ge_iff_le, u32_le_iff_toNat_le, e97, ht]
      omega
    · apply decide_eq_true
      rw [u32_le_iff_toNat_le, e122, ht]
      omega
  · rw [Char.isLower, Bool.and_eq_true] at h
    obtain ⟨h1, h2⟩ := h
    have g1 : (97 : UInt32) ≤ c.val := of_decide_eq_true h1
    have g2 : c.val ≤ (122 : UInt32) := of_decide_eq_true h2
    rw [u32_le_iff_toNat_le] at g1 g2
    rw [Char.toLower]
    rw [if_neg (by
      have hn1 : 97 ≤ c.toNat := g1
      omega)]
    rw [Char.isLower, Bool.and_eq_true]
    exact ⟨h1, h2⟩

/-- C3: on every change of the input field the client emits a typing event
whose payload is exactly the input length, so two inputs of equal length
produce identical payloads (no letter content flows into the event). -/
theorem typing_payload_length_only (s1 s2 : String) (h : s1.length = s2.length) :
    typingPayload s1 = ⟨s1.length⟩ ∧ typingPayload s1 = typingPayload s2 :=
  ⟨rfl, by simp [typingPayload, h]⟩

/-- Witness for typing_payload_length_only at the equal-length inputs
"hi" and "no". -/
theorem typing_payload_length_only_witness :
    ("hi" : String).length = ("no" : String).length ∧
    (typingPayload "hi" = ⟨("hi" : String).length⟩ ∧
      typingPayload "hi" = typingPayload "no") :=
  ⟨by decide, typing_payload_length_only "hi" "no" (by decide)⟩

/-- C5: the room:reset handler makes both boards exactly MAX_GUESSES rows of
empty guess and empty feedback, and empties the status and the input. -/
theorem room_reset_clears_boards (st : ClientState) :
    (onRoomReset st).board = List.replicate MAX_GUESSES ⟨"", []⟩ ∧
    (onRoomReset st).otherBoard = List.replicate MAX_GUESSES ⟨"", []⟩ ∧
    (onRoomReset st).status = "" ∧ (onRoomReset st).input = "" :=
  ⟨rfl, rfl, rfl, rfl⟩

/-- C10: the room:reset handler is idempotent on the board, opponent board,
status and input it touches. -/
theorem room_reset_idempotent (st : ClientState) :
    (onRoomReset (onRoomReset st)).board = (onRoomReset st).board ∧
    (onRoomReset (onRoomReset st)).otherBoard = (onRoomReset st).otherBoard ∧
    (onRoomReset (onRoomReset st)).status = (onRoomReset st).status ∧
    (onRoomReset (onRoomReset st)).input = (onRoomReset st).input :=
  ⟨rfl, rfl, rfl, rfl⟩

/-- C8 counterexample: a present but empty winnerSid is falsy in JS, so the
handler sets the draw notice instead of leaving the status unchanged. -/
theorem room_finished_empty_winner_cex :
    (onRoomFinished "crane" (some "") ⟨emptyBoard, emptyBoard, "", "", 0⟩).status ≠
      (⟨emptyBoard, emptyBoard, "", "", 0⟩ : ClientState).status := by
  decide

/-- C8 amended: a room:finished event whose winnerSid is absent or the falsy
empty string sets the draw notice with the upper-cased solution; with a
non-empty winnerSid present the handler leaves the status unchanged. -/
theorem room_finished_draw_status (st : ClientState) (sol : String) (w : String)
    (hw : w ≠ "") :
    (onRoomFinished sol none st).status = "Draw. Solution: " ++ jsToUpper sol ∧
    (onRoomFinished sol (some "") st).status = "Draw. Solution: " ++ jsToUpper sol ∧
    (onRoomFinished sol (some w) st).status = st.status := by
  refine ⟨rfl, rfl, ?_⟩
  simp [onRoomFinished, hw]

/-- Witness for room_finished_draw_status with solution crane and the
non-empty winner sid bob. -/
theorem room_finished_draw_status_witness :
    ("bob" : String) ≠ "" ∧
    ((onRoomFinished "crane" none ⟨emptyBoard, emptyBoard, "", "", 0⟩).status =
        "Draw. Solution: " ++ jsToUpper "crane" ∧
      (onRoomFinished "crane" (some "") ⟨emptyBoard, emptyBoard, "", "", 0⟩).status =
        "Draw. Solution: " ++ jsToUpper "crane" ∧
      (onRoomFinished "crane" (some "bob") ⟨emptyBoard, emptyBoard, "", "", 0⟩).status =
        (⟨emptyBoard, emptyBoard, "", "", 0⟩ : ClientState).status) :=
  ⟨by decide,
    room_finished_draw_status ⟨emptyBoard, emptyBoard, "", "", 0⟩ "crane" "bob" (by decide)⟩

/-- C9 counterexample: a present but empty room parameter is not used
verbatim; the JS falsy-or makes it fall back to lobby. -/
theorem room_param_verbatim_cex : initRoomId (some "") ≠ "" := by
  decide

/-- C9 amended: an absent room parameter, and also a present but empty one,
initializes roomId to lobby (which room_join then carries); a nonempty
parameter is used verbatim. -/
theorem room_id_default (s : String) (h : s ≠ "") :
    initRoomId none = "lobby" ∧ roomJoinPayload none = "lobby" ∧
    initRoomId (some "") = "lobby" ∧ roomJoinPayload (some "") = "lobby" ∧
    initRoomId (some s) = s ∧ roomJoinPayload (some s) = s := by
  refine ⟨rfl, rfl, by decide, by decide, ?_, ?_⟩ <;>
    simp [initRoomId, roomJoinPayload, h]

/-- Witness for room_id_default at the nonempty parameter "games". -/
theorem room_id_default_witness :
    ("games" : String) ≠ "" ∧
    (initRoomId none = "lobby" ∧ roomJoinPayload none = "lobby" ∧
      initRoomId (some "") = "lobby" ∧ roomJoinPayload (some "") = "lobby" ∧
      initRoomId (some "games") = "games" ∧ roomJoinPayload (some "games") = "games") :=
  ⟨by decide, room_id_default "games" (by decide)⟩

/-- C7: a typing update from a session that is not a player leaves the room
unchanged, broadcasts nothing, and in particular the opponent-typing state of
every other participant is untouched. -/
theorem spectator_typing_no_effect (room : ServerRoom) (sid : String) (len : Nat)
    (p : String) (st : ClientState) (h : sid ∉ room.players) :
    (typingProgress room sid len).1 = room ∧
    (typingProgress room sid len).2 = [] ∧
    deliverTyping (typingProgress room sid len).2 p st = st := by
  simp [typingProgress, h, deliverTyping]

/-- Witness for spectator_typing_no_effect: spectator eve types in a room with
players ana and bob; ana observes no change. -/
theorem spectator_typing_no_effect_witness :
    ("eve" : String) ∉ (⟨["ana", "bob", "eve"], ["ana", "bob"]⟩ : ServerRoom).players ∧
    ((typingProgress ⟨["ana", "bob", "eve"], ["ana", "bob"]⟩ "eve" 3).1 =
        ⟨["ana", "bob", "eve"], ["ana", "bob"]⟩ ∧
      (typingProgress ⟨["ana", "bob", "eve"], ["ana", "bob"]⟩ "eve" 3).2 = [] ∧
      deliverTyping (typingProgress ⟨["ana", "bob", "eve"], ["ana", "bob"]⟩ "eve" 3).2
          "ana" ⟨emptyBoard, emptyBoard, "", "", 0⟩ =
        ⟨emptyBoard, emptyBoard, "", "", 0⟩) :=
  ⟨by decide,
    spectator_typing_no_effect ⟨["ana", "bob", "eve"], ["ana", "bob"]⟩ "eve" 3 "ana"
      ⟨emptyBoard, emptyBoard, "", "", 0⟩ (by decide)⟩

theorem sanitizeInput_wf (raw : String) :
    (sanitizeInput raw).length ≤ WORD_LEN ∧
    (sanitizeInput raw).data.all Char.isLower = true := by
  constructor
  · show (((raw.data.filter Char.isAlpha).take WORD_LEN).map Char.toLower).length ≤ WORD_LEN
    rw [List.length_map]
    exact List.length_take_le _ _
  · show (((raw.data.filter Char.isAlpha).take WORD_LEN).map Char.toLower).all
      Char.isLower = true
    rw [List.all_eq_true]
    intro c hc
    rw [List.mem_map] at hc
    obtain ⟨a, ha, hac⟩ := hc
    have haa : a.isAlpha = true := by
      have hmem := List.mem_of_mem_take ha
      exact (List.mem_filter.mp hmem).2
    rw [← hac]
    exact isLower_toLower a haa

theorem clientReachable_input_wf (st : GuessClient) (h : ClientReachable st) :
    st.input.length ≤ WORD_LEN ∧ st.input.data.all Char.isLower = true := by
  induction h with
  | init => exact ⟨by decide, by decide⟩
  | step st e h ih =>
    cases e with
    | hello b => exact ih
    | inputChange raw => exact sanitizeInput_wf raw
    | submitGuess =>
      by_cases hc : (st.isPlayer && st.input.length == WORD_LEN) = true
      · simp only [clientStep, hc, if_pos]
        exact ⟨by decide, by decide⟩
      · simp only [clientStep, hc, if_neg, Bool.not_eq_true]
        simpa [hc] using ih
    | roomReset =>
      constructor
      · show ("" : String).length ≤ WORD_LEN
        decide
      · show ("" : String).data.all Char.isLower = true
        decide

/-- C6: every guess event the reachable client emits is well-formed: it is
emitted only while the client is a player, and the emitted word has length
exactly WORD_LEN and consists only of lowercase ASCII letters; a spectator or
an input of a different length emits nothing, since emission forces the
player flag and the length check. -/
theorem guess_emit_wellformed (st : GuessClient) (e : ClientEvent) (w : String)
    (hr : ClientReachable st) (he : (clientStep st e).2 = some w) :
    st.isPlayer = true ∧ w.length = WORD_LEN ∧ w.data.all Char.isLower = true := by
  obtain ⟨hlen, hlow⟩ := clientReachable_input_wf st hr
  cases e with
  | hello b => simp [clientStep] at he
  | inputChange raw => simp [clientStep] at he
  | roomReset => simp [clientStep] at he
  | submitGuess =>
    by_cases hc : (st.isPlayer && st.input.length == WORD_LEN) = true
    · simp only [clientStep, hc, if_pos] at he
      rw [Bool.and_eq_true] at hc
      obtain ⟨hp, hl⟩ := hc
      have hw : st.input = w := by simpa using he
      subst hw
      exact ⟨hp, by simpa using hl, hlow⟩
    · simp [clientStep, hc] at he

/-- Witness for guess_emit_wellformed: the player who typed CRANE (sanitized
to crane) and submits it. -/
theorem guess_emit_wellformed_witness :
    ClientReachable ⟨true, "crane"⟩ ∧
    (clientStep ⟨true, "crane"⟩ ClientEvent.submitGuess).2 = some "crane" ∧
    ((⟨true, "crane"⟩ : GuessClient).isPlayer = true ∧
      ("crane" : String).length = WORD_LEN ∧
      ("crane" : String).data.all Char.isLower = true) := by
  have r1 := ClientReachable.step initClient (ClientEvent.hello true) ClientReachable.init
  have r2 := ClientReachable.step _ (ClientEvent.inputChange "CRANE") r1
  have heq : (clientStep (clientStep initClient (ClientEvent.hello true)).1
      (ClientEvent.inputChange "CRANE")).1 = (⟨true, "crane"⟩ : GuessClient) := by decide
  have hr : ClientReachable ⟨true, "crane"⟩ := heq ▸ r2
  exact ⟨hr, by decide,
    guess_emit_wellformed ⟨true, "crane"⟩ ClientEvent.submitGuess "crane" hr (by decide)⟩

theorem setRowGo_length (row : Nat) (e : BoardRow) (k : Nat) (rows : List BoardRow) :
    (setRowGo row e k rows).length = rows.length := by
  induction rows generalizing k with
  | nil => rfl
  | cons r rs ih => simp [setRowGo, ih]

theorem setRowGo_getD (row : Nat) (e : BoardRow) (rows : List BoardRow) (k i : Nat)
    (d : BoardRow) :
    (setRowGo row e k rows).getD i d =
      if k + i = row ∧ i < rows.length then e else rows.getD i d := by
  induction rows generalizing k i with
  | nil => simp [setRowGo]
  | cons r rs ih =>
    cases i with
    | zero =>
      by_cases hk : k = row
      · simp [setRowGo, hk]
      · simp [setRowGo, hk]
    | succ n =>
      simp only [setRowGo, List.getD_cons_succ]
      rw [ih]
      have hcond : ((k + 1) + n = row ∧ n < rs.length) ↔
          (k + (n + 1) = row ∧ n + 1 < (r :: rs).length) := by
        simp only [List.length_cons]
        omega
      rw [if_congr hcond rfl rfl]

theorem setRow_length (rows : List BoardRow) (row : Nat) (e : BoardRow) :
    (setRow rows row e).length = rows.length :=
  setRowGo_length row e 0 rows

theorem setRow_getD (rows : List BoardRow) (row : Nat) (e : BoardRow) (i : Nat)
    (d : BoardRow) :
    (setRow rows row e).getD i d =
      if i = row ∧ i < rows.length then e else rows.getD i d := by
  rw [setRow, setRowGo_getD]
  have hcond : (0 + i = row ∧ i < rows.length) ↔ (i = row ∧ i < rows.length) := by omega
  rw [if_congr hcond rfl rfl]

theorem onGuessResult_board (ownSid : String) (p : GuessResult) (st : ClientState) :
    (onGuessResult ownSid p st).board =
      if p.sid = ownSid then setRow st.board p.row ⟨p.guess, p.feedback⟩
      else st.board := by
  rcases hw : p.winnerSid with _ | w
  · by_cases hs : p.sid = ownSid <;> simp [onGuessResult, hw, hs]
  · by_cases hs : p.sid = ownSid <;> by_cases hw2 : w = "" <;>
      simp [onGuessResult, hw, hs, hw2]

theorem onGuessResult_otherBoard (ownSid : String) (p : GuessResult) (st : ClientState) :
    (onGuessResult ownSid p st).otherBoard =
      if p.sid = ownSid then st.otherBoard
      else setRow st.otherBoard p.row ⟨p.guess, p.feedback⟩ := by
  rcases hw : p.winnerSid with _ | w
  · by_cases hs : p.sid = ownSid <;> simp [onGuessResult, hw, hs]
  · by_cases hs : p.sid = ownSid <;> by_cases hw2 : w = "" <;>
      simp [onGuessResult, hw, hs, hw2]

theorem renderRow_setRowGo_fb (ob : List BoardRow) (k row : Nat) (e1 e2 : BoardRow)
    (hfb : e1.fb = e2.fb) :
    (setRowGo row e1 k ob).map (fun r => renderRow " " r.fb) =
      (setRowGo row e2 k ob).map fun r => renderRow " " r.fb := by
  induction ob generalizing k with
  | nil => rfl
  | cons r rs ih =>
    simp only [setRowGo, List.map_cons]
    rw [ih (k + 1)]
    by_cases hk : k = row
    · simp [hk, hfb]
    · simp [hk]

/-- C2: for any two guess:result events from the opponent that agree on row
and feedback but may differ arbitrarily in the guess letters, the rendered
opponent board is identical: the opponent section renders every row with the
constant guess string, so only feedback colors are shown. -/
theorem opponent_board_letters_hidden (ownSid : String) (st : ClientState)
    (p1 p2 : GuessResult) (h1 : p1.sid ≠ ownSid) (h2 : p2.sid ≠ ownSid)
    (hrow : p1.row = p2.row) (hfb : p1.feedback = p2.feedback) :
    renderOpponentBoard (onGuessResult ownSid p1 st).otherBoard =
      renderOpponentBoard (onGuessResult ownSid p2 st).otherBoard := by
  rw [onGuessResult_otherBoard, onGuessResult_otherBoard, if_neg h1, if_neg h2, hrow]
  unfold renderOpponentBoard setRow
  exact renderRow_setRowGo_fb st.otherBoard 0 p2.row ⟨p1.guess, p1.feedback⟩
    ⟨p2.guess, p2.feedback⟩ hfb

/-- Witness for opponent_board_letters_hidden: two opponent results for row 2
with the same colors but the different words crane and slate render the same
opponent board. -/
theorem opponent_board_letters_hidden_witness :
    (("them" : String) ≠ "me" ∧ ("them" : String) ≠ "me" ∧
      (2 : Nat) = 2 ∧ (['g', 'y', 'b', 'b', 'b'] : List Char) = ['g', 'y', 'b', 'b', 'b']) ∧
    renderOpponentBoard
        (onGuessResult "me" ⟨"them", 2, "crane", ['g', 'y', 'b', 'b', 'b'], none⟩
          ⟨emptyBoard, emptyBoard, "", "", 0⟩).otherBoard =
      renderOpponentBoard
        (onGuessResult "me" ⟨"them", 2, "slate", ['g', 'y', 'b', 'b', 'b'], none⟩
          ⟨emptyBoard, emptyBoard, "", "", 0⟩).otherBoard :=
  ⟨⟨by decide, by decide, rfl, rfl⟩,
    opponent_board_letters_hidden "me" ⟨emptyBoard, emptyBoard, "", "", 0⟩
      ⟨"them", 2, "crane", ['g', 'y', 'b', 'b', 'b'], none⟩
      ⟨"them", 2, "slate", ['g', 'y', 'b', 'b', 'b'], none⟩
      (by decide) (by decide) rfl rfl⟩

/-- C4: a guess:result event replaces exactly the row at the payload's index
of the board picked by comparing the payload sid with the client's own id:
row i of either board is the new entry precisely when that board was picked
and i is the payload row, and is the old row otherwise; lengths are
preserved, and the unpicked board is unchanged as a whole. -/
theorem guess_result_frame (ownSid : String) (st : ClientState) (p : GuessResult)
    (d : BoardRow) (i : Nat)
    (hb : st.board.length = MAX_GUESSES) (ho : st.otherBoard.length = MAX_GUESSES)
    (hrow : p.row < MAX_GUESSES) :
    (onGuessResult ownSid p st).board.getD i d =
      (if p.sid = ownSid ∧ i = p.row then ⟨p.guess, p.feedback⟩
        else st.board.getD i d) ∧
    (onGuessResult ownSid p st).otherBoard.getD i d =
      (if p.sid ≠ ownSid ∧ i = p.row then ⟨p.guess, p.feedback⟩
        else st.otherBoard.getD i d) ∧
    (onGuessResult ownSid p st).board.length = MAX_GUESSES ∧
    (onGuessResult ownSid p st).otherBoard.length = MAX_GUESSES ∧
    (if p.sid = ownSid then (onGuessResult ownSid p st).otherBoard = st.otherBoard
      else (onGuessResult ownSid p st).board = st.board) := by
  rw [onGuessResult_board, onGuessResult_otherBoard]
  by_cases hs : p.sid = ownSid
  · simp only [if_pos hs]
    refine ⟨?_, ?_, ?_, ho, trivial⟩
    · rw [setRow_getD, hb]
      have hcond : (i = p.row ∧ i < MAX_GUESSES) ↔ (p.sid = ownSid ∧ i = p.row) := by
        constructor
        · rintro ⟨ha, _⟩
          exact ⟨hs, ha⟩
        · rintro ⟨_, ha⟩
          exact ⟨ha, by omega⟩
      rw [if_congr hcond rfl rfl]
    · rw [if_neg]
      rintro ⟨hn, _⟩
      exact hn hs
    · rw [setRow_length, hb]
  · simp only [if_neg hs]
    refine ⟨?_, ?_, hb, ?_, trivial⟩
    · rw [if_neg]
      rintro ⟨hn, _⟩
      exact hs hn
    · rw [setRow_getD, ho]
      have hcond : (i = p.row ∧ i < MAX_GUESSES) ↔ (p.sid ≠ ownSid ∧ i = p.row) := by
        constructor
        · rintro ⟨ha, _⟩
          exact ⟨hs, ha⟩
        · rintro ⟨_, ha⟩
          exact ⟨ha, by omega⟩
      rw [if_congr hcond rfl rfl]
    · rw [setRow_length, ho]

/-- Witness for guess_result_frame: the client's own result for row 2 lands in
row 2 of the own board; row 1 and the opponent board are untouched. -/
theorem guess_result_frame_witness :
    ((emptyBoard.length = MAX_GUESSES ∧ emptyBoard.length = MAX_GUESSES ∧
        (2 : Nat) < MAX_GUESSES)) ∧
    ((onGuessResult "me" ⟨"me", 2, "crane", ['g', 'g', 'g', 'g', 'g'], some "me"⟩
          ⟨emptyBoard, emptyBoard, "", "", 0⟩).board.getD 1 ⟨"", []⟩ =
        (if ("me" : String) = "me" ∧ (1 : Nat) = 2 then ⟨"crane", ['g', 'g', 'g', 'g', 'g']⟩
          else emptyBoard.getD 1 ⟨"", []⟩) ∧
      (onGuessResult "me" ⟨"me", 2, "crane", ['g', 'g', 'g', 'g', 'g'], some "me"⟩
          ⟨emptyBoard, emptyBoard, "", "", 0⟩).otherBoard.getD 1 ⟨"", []⟩ =
        (if ("me" : String) ≠ "me" ∧ (1 : Nat) = 2 then ⟨"crane", ['g', 'g', 'g', 'g', 'g']⟩
          else emptyBoard.getD 1 ⟨"", []⟩) ∧
      (onGuessResult "me" ⟨"me", 2, "crane", ['g', 'g', 'g', 'g', 'g'], some "me"⟩
          ⟨emptyBoard, emptyBoard, "", "", 0⟩).board.length = MAX_GUESSES ∧
      (onGuessResult "me" ⟨"me", 2, "crane", ['g', 'g', 'g', 'g', 'g'], some "me"⟩
          ⟨emptyBoard, emptyBoard, "", "", 0⟩).otherBoard.length = MAX_GUESSES ∧
      (if ("me" : String) = "me" then
          (onGuessResult "me" ⟨"me", 2, "crane", ['g', 'g', 'g', 'g', 'g'], some "me"⟩
            ⟨emptyBoard, emptyBoard, "", "", 0⟩).otherBoard = emptyBoard
        else
          (onGuessResult "me" ⟨"me", 2, "crane", ['g', 'g', 'g', 'g', 'g'], some "me"⟩
            ⟨emptyBoard, emptyBoard, "", "", 0⟩).board = emptyBoard)) :=
  ⟨⟨by decide, by decide, by decide⟩,
    guess_result_frame "me" ⟨emptyBoard, emptyBoard, "", "", 0⟩
      ⟨"me", 2, "crane", ['g', 'g', 'g', 'g', 'g'], some "me"⟩ ⟨"", []⟩ 1
      (by decide) (by decide) (by decide)⟩

theorem countP_and_split {α : Type} (l : List α) (q p : α → Bool) :
    l.countP (fun a => q a && p a) + l.countP (fun a => q a && !p a) = l.countP q := by
  induction l with
  | nil => rfl
  | cons a as ih =>
    simp only [List.countP_cons]
    cases hq : q a <;> cases hp : p a <;> simp [hq, hp] <;> omega

theorem pass1_fst (g t : List Char) (c0 : Char → Nat) :
    (pass1 g t c0).1 = (g.zip t).map fun p => p.1 == p.2 := by
  induction g generalizing t c0 with
  | nil => cases t <;> rfl
  | cons gc gs ih =>
    cases t with
    | nil => rfl
    | cons tc ts =>
      by_cases h : gc = tc
      · simp [pass1, h, ih]
      · simp [pass1, h, ih]

theorem pass1_snd (g t : List Char) (c0 : Char → Nat) (x : Char) :
    (pass1 g t c0).2 x =
      c0 x - (g.zip t).countP fun p => p.1 == x && p.1 == p.2 := by
  induction g generalizing t c0 with
  | nil => cases t <;> simp [pass1]
  | cons gc gs ih =>
    cases t with
    | nil => simp [pass1]
    | cons tc ts =>
      by_cases h : gc = tc
      · subst h
        have hstep : pass1 (gc :: gs) (gc :: ts) c0 =
            (true :: (pass1 gs ts fun y => if y = gc then c0 y - 1 else c0 y).1,
              (pass1 gs ts fun y => if y = gc then c0 y - 1 else c0 y).2) := by
          simp [pass1]
        rw [hstep, List.zip_cons_cons, List.countP_cons, ih]
        by_cases hx : gc = x
        · subst hx
          simp
          omega
        · have hb : (gc == x) = false := beq_eq_false_iff_ne.mpr hx
          have hx2 : x ≠ gc := fun hxx => hx hxx.symm
          simp [hb, hx2]
      · have hfalse : (gc == x && gc == tc) = false := by
          have : (gc == tc) = false := beq_eq_false_iff_ne.mpr h
          simp [this]
        simp [pass1, h, ih, List.countP_cons, hfalse]

theorem pass2_gy (ps : List (Char × Bool)) (cnt : Char → Nat) (L : Char) :
    ((ps.zip (pass2 ps cnt)).countP fun q =>
        q.1.1 == L && (q.2 == Mark.G || q.2 == Mark.Y)) =
      ps.countP (fun p => p.1 == L && p.2) +
        min (ps.countP fun p => p.1 == L && !p.2) (cnt L) := by
  induction ps generalizing cnt with
  | nil => simp [pass2]
  | cons hd rest ih =>
    obtain ⟨c, b⟩ := hd
    cases b with
    | true =>
      rw [show pass2 ((c, true) :: rest) cnt = Mark.G :: pass2 rest cnt from by
        simp [pass2]]
      rw [List.zip_cons_cons, List.countP_cons, List.countP_cons, List.countP_cons, ih]
      by_cases hc : c = L
      · subst hc
        have e1 : (c == c && (Mark.G == Mark.G || Mark.G == Mark.Y)) = true := by
          rw [beq_self_eq_true]
          decide
        have e2 : (c == c && true) = true := by
          rw [beq_self_eq_true]
          decide
        have e3 : (c == c && !true) = false := by
          rw [beq_self_eq_true]
          decide
        simp only [e1, e2, e3, eq_self_iff_true, Bool.false_eq_true, if_true, if_false]
        omega
      · have hb : (c == L) = false := beq_eq_false_iff_ne.mpr hc
        simp [hb]
    | false =>
      by_cases hpos : cnt c > 0
      · rw [show pass2 ((c, false) :: rest) cnt =
            Mark.Y :: pass2 rest fun x => if x = c then cnt x - 1 else cnt x from by
          simp [pass2, hpos]]
        rw [List.zip_cons_cons, List.countP_cons, List.countP_cons, List.countP_cons, ih]
        by_cases hc : c = L
        · subst hc
          have e1 : (c == c && (Mark.Y == Mark.G || Mark.Y == Mark.Y)) = true := by
            rw [beq_self_eq_true]
            decide
          have e2 : (c == c && false) = false := by
            rw [beq_self_eq_true]
            decide
          have e3 : (c == c && !false) = true := by
            rw [beq_self_eq_true]
            decide
          simp only [e1, e2, e3, eq_self_iff_true, Bool.false_eq_true, if_true, if_false]
          omega
        · have hb : (c == L) = false := beq_eq_false_iff_ne.mpr hc
          have hc2 : L ≠ c := fun hxx => hc hxx.symm
          simp [hb, hc2]
      · rw [show pass2 ((c, false) :: rest) cnt = Mark.B :: pass2 rest cnt from by
          simp [pass2, hpos]]
        rw [List.zip_cons_cons, List.countP_cons, List.countP_cons, List.countP_cons, ih]
        by_cases hc : c = L
        · subst hc
          have hz : cnt c = 0 := by omega
          have e1 : (c == c && (Mark.B == Mark.G || Mark.B == Mark.Y)) = false := by
            rw [beq_self_eq_true]
            decide
          have e2 : (c == c && false) = false := by
            rw [beq_self_eq_true]
            decide
          have e3 : (c == c && !false) = true := by
            rw [beq_self_eq_true]
            decide
          simp only [e1, e2, e3, eq_self_iff_true, Bool.false_eq_true, if_true, if_false]
          omega
        · have hb : (c == L) = false := beq_eq_false_iff_ne.mpr hc
          simp [hb]

theorem pass2_allsnd_true (ps : List (Char × Bool)) (cnt : Char → Nat)
    (h : ∀ p ∈ ps, p.2 = true) :
    pass2 ps cnt = List.replicate ps.length Mark.G := by
  induction ps generalizing cnt with
  | nil => rfl
  | cons hd rest ih =>
    obtain ⟨c, b⟩ := hd
    have hb : b = true := h (c, b) (List.mem_cons_self _ _)
    subst hb
    rw [show pass2 ((c, true) :: rest) cnt = Mark.G :: pass2 rest cnt from by
      simp [pass2]]
    rw [List.length_cons, List.replicate_succ]
    rw [ih cnt fun p hp => h p (List.mem_cons_of_mem _ hp)]

theorem pass2_getElem_G (ps : List (Char × Bool)) (cnt : Char → Nat) (i : Nat)
    (c : Char) (b : Bool) (hp : ps[i]? = some (c, b)) :
    ((pass2 ps cnt)[i]? = some Mark.G ↔ b = true) := by
  induction ps generalizing cnt i with
  | nil => simp at hp
  | cons hd rest ih =>
    cases i with
    | zero =>
      simp only [List.getElem?_cons_zero, Option.some_inj] at hp
      subst hp
      cases b with
      | true =>
        rw [show pass2 ((c, true) :: rest) cnt = Mark.G :: pass2 rest cnt from by
          simp [pass2]]
        simp
      | false =>
        by_cases hpos : cnt c > 0
        · rw [show pass2 ((c, false) :: rest) cnt =
              Mark.Y :: pass2 rest fun x => if x = c then cnt x - 1 else cnt x from by
            simp [pass2, hpos]]
          simp
        · rw [show pass2 ((c, false) :: rest) cnt = Mark.B :: pass2 rest cnt from by
            simp [pass2, hpos]]
          simp
    | succ n =>
      obtain ⟨c0, b0⟩ := hd
      simp only [List.getElem?_cons_succ] at hp
      cases b0 with
      | true =>
        rw [show pass2 ((c0, true) :: rest) cnt = Mark.G :: pass2 rest cnt from by
          simp [pass2]]
        simpa using ih cnt n hp
      | false =>
        by_cases hpos : cnt c0 > 0
        · rw [show pass2 ((c0, false) :: rest) cnt =
              Mark.Y :: pass2 rest fun x => if x = c0 then cnt x - 1 else cnt x from by
            simp [pass2, hpos]]
          simpa using ih _ n hp
        · rw [show pass2 ((c0, false) :: rest) cnt = Mark.B :: pass2 rest cnt from by
            simp [pass2, hpos]]
          simpa using ih cnt n hp

theorem fst_eq_snd_of_mem_zip_self (t : List Char) (p : Char × Char) (h : p ∈ t.zip t) :
    p.1 = p.2 := by
  induction t with
  | nil => simp at h
  | cons a as ih =>
    rw [List.zip_cons_cons, List.mem_cons] at h
    rcases h with h | h
    · rw [h]
    · exact ih h

theorem zip_map_self_snd (a b : List Char) (f : Char × Char → Bool) :
    a.zip ((a.zip b).map f) = (a.zip b).map fun p => (p.1, f p) := by
  induction a generalizing b with
  | nil => rfl
  | cons x xs ih =>
    cases b with
    | nil => rfl
    | cons y ys =>
      simp only [List.zip_cons_cons, List.map_cons]
      rw [ih ys]

theorem zip_map_fst_pairs (l : List (Char × Char)) (mk : Char × Char → Bool)
    (fb : List Mark) :
    (l.map Prod.fst).zip fb =
      ((l.map fun p => (p.1, mk p)).zip fb).map fun q => (q.1.1, q.2) := by
  induction l generalizing fb with
  | nil => rfl
  | cons p rest ih =>
    cases fb with
    | nil => rfl
    | cons m ms =>
      simp only [List.map_cons, List.zip_cons_cons]
      rw [ih ms]

theorem getElem_zip_of (g t : List Char) (i : Nat) (gc tc : Char)
    (hg : g[i]? = some gc) (ht : t[i]? = some tc) :
    (g.zip t)[i]? = some (gc, tc) := by
  induction g generalizing t i with
  | nil => simp at hg
  | cons a as ih =>
    cases t with
    | nil => simp at ht
    | cons b bs =>
      cases i with
      | zero =>
        simp only [List.getElem?_cons_zero, Option.some_inj] at hg ht
        simp [List.zip_cons_cons, hg, ht]
      | succ n =>
        simp only [List.getElem?_cons_succ] at hg ht
        simp only [List.zip_cons_cons, List.getElem?_cons_succ]
        exact ih bs n hg ht

theorem countP_fst_zip (g t : List Char) (h : g.length = t.length) (L : Char) :
    (g.zip t).countP (fun p => p.1 == L) = g.count L := by
  induction g generalizing t with
  | nil => simp
  | cons a as ih =>
    cases t with
    | nil => simp at h
    | cons b bs =>
      simp only [List.zip_cons_cons, List.countP_cons, List.count_cons]
      rw [ih bs (by simpa using h)]

theorem countP_snd_zip (g t : List Char) (h : g.length = t.length) (L : Char) :
    (g.zip t).countP (fun p => p.2 == L) = t.count L := by
  induction g generalizing t with
  | nil =>
    cases t with
    | nil => simp
    | cons b bs => simp at h
  | cons a as ih =>
    cases t with
    | nil => simp at h
    | cons b bs =>
      simp only [List.zip_cons_cons, List.countP_cons, List.count_cons]
      rw [ih bs (by simpa using h)]

theorem feedback_eq (g t : List Char) :
    feedback g t =
      pass2 ((g.zip t).map fun p => (p.1, p.1 == p.2))
        fun x => t.count x - (g.zip t).countP fun p => p.1 == x && p.1 == p.2 := by
  have h2 : (pass1 g t fun c => t.count c).2 =
      fun x => t.count x - (g.zip t).countP fun p => p.1 == x && p.1 == p.2 :=
    funext fun x => pass1_snd g t _ x
  show pass2 (g.zip (pass1 g t fun c => t.count c).1) (pass1 g t fun c => t.count c).2 = _
  rw [pass1_fst, h2, zip_map_self_snd]

theorem gy_zip (g : List Char) (l : List (Char × Char)) (cnt : Char → Nat) (L : Char)
    (hg : g = l.map Prod.fst) :
    ((g.zip (pass2 (l.map fun p => (p.1, p.1 == p.2)) cnt)).countP
        fun p => p.1 == L && (p.2 == Mark.G || p.2 == Mark.Y)) =
      ((l.map fun p => (p.1, p.1 == p.2)).countP fun p => p.1 == L && p.2) +
        min ((l.map fun p => (p.1, p.1 == p.2)).countP fun p => p.1 == L && !p.2)
          (cnt L) := by
  subst hg
  rw [zip_map_fst_pairs l (fun p => p.1 == p.2) (pass2 _ cnt), List.countP_map]
  exact pass2_gy _ cnt L

theorem countP_match_le_snd (z : List (Char × Char)) (L : Char) :
    z.countP (fun p => p.1 == L && (p.1 == p.2)) ≤ z.countP fun p => p.2 == L := by
  apply List.countP_mono_left
  intro a ha hpa
  simp only [Bool.and_eq_true, beq_iff_eq] at hpa
  simp only [beq_iff_eq]
  obtain ⟨h1, h2⟩ := hpa
  rw [← h2, h1]

/-- C1: the feedback engine marks a guess equal to the target all GREEN; for
every letter L the number of GREEN plus YELLOW marks on occurrences of L in
feedback(G, T) is exactly min(count of L in G, count of L in T); and a
position is GREEN exactly when guess and target agree there, so exact-position
GREEN takes priority over YELLOW for the same letter. -/
theorem feedback_engine_spec (G T : List Char) (L : Char) (i : Nat)
    (hi : i < WORD_LEN) (hG : G.length = WORD_LEN) (hT : T.length = WORD_LEN)
    (hGa : G.all Char.isAlpha = true) (hTa : T.all Char.isAlpha = true) :
    feedback T T = List.replicate WORD_LEN Mark.G ∧
    gyCount G (feedback G T) L = min (G.count L) (T.count L) ∧
    ((feedback G T)[i]? = some Mark.G ↔ G[i]? = T[i]?) := by
  refine ⟨?_, ?_, ?_⟩
  · rw [feedback_eq]
    rw [pass2_allsnd_true]
    · rw [List.length_map, List.length_zip, hT, Nat.min_self]
    · intro q hq
      rw [List.mem_map] at hq
      obtain ⟨p, hp, rfl⟩ := hq
      have hps := fst_eq_snd_of_mem_zip_self T p hp
      simp [hps]
  · have hlen : G.length ≤ T.length := by rw [hG, hT]
    have hfst : (G.zip T).map Prod.fst = G := List.map_fst_zip G T hlen
    rw [gyCount, feedback_eq, gy_zip G (G.zip T) _ L hfst.symm]
    have e1 : ((G.zip T).map fun p => (p.1, p.1 == p.2)).countP
        (fun p => p.1 == L && p.2) =
        (G.zip T).countP fun p => p.1 == L && (p.1 == p.2) := by
      rw [List.countP_map]
      rfl
    have e2 : ((G.zip T).map fun p => (p.1, p.1 == p.2)).countP
        (fun p => p.1 == L && !p.2) =
        (G.zip T).countP fun p => p.1 == L && !(p.1 == p.2) := by
      rw [List.countP_map]
      rfl
    show ((G.zip T).map fun p => (p.1, p.1 == p.2)).countP
        (fun p => p.1 == L && p.2) +
        min (((G.zip T).map fun p => (p.1, p.1 == p.2)).countP
          fun p => p.1 == L && !p.2)
          (T.count L - (G.zip T).countP fun p => p.1 == L && (p.1 == p.2)) =
        min (G.count L) (T.count L)
    rw [e1, e2]
    have hsplit : (G.zip T).countP (fun p => p.1 == L && (p.1 == p.2)) +
        (G.zip T).countP (fun p => p.1 == L && !(p.1 == p.2)) =
        (G.zip T).countP fun p => p.1 == L :=
      countP_and_split (G.zip T) _ _
    have hq : (G.zip T).countP (fun p => p.1 == L) = G.count L :=
      countP_fst_zip G T (hG.trans hT.symm) L
    have hmono : (G.zip T).countP (fun p => p.1 == L && (p.1 == p.2)) ≤
        (G.zip T).countP fun p => p.2 == L :=
      countP_match_le_snd (G.zip T) L
    have ht2 : (G.zip T).countP (fun p => p.2 == L) = T.count L :=
      countP_snd_zip G T (hG.trans hT.symm) L
    rw [hq] at hsplit
    rw [ht2] at hmono
    omega
  · have hiG : i < G.length := by omega
    have hiT : i < T.length := by omega
    have hgi : G[i]? = some G[i] := List.getElem?_eq_getElem hiG
    have hti : T[i]? = some T[i] := List.getElem?_eq_getElem hiT
    have hzi := getElem_zip_of G T i _ _ hgi hti
    have hpsi : ((G.zip T).map fun p => (p.1, p.1 == p.2))[i]? =
        some (G[i], G[i] == T[i]) := by
      rw [List.getElem?_map, hzi]
      rfl
    rw [feedback_eq]
    rw [pass2_getElem_G _ _ i (G[i]) (G[i] == T[i]) hpsi]
    rw [hgi, hti]
    simp [beq_iff_eq]

/-- Witness for feedback_engine_spec at the spec's double-letter example:
guess llama against target allot, letter l, position 0. -/
theorem feedback_engine_spec_witness :
    ((0 : Nat) < WORD_LEN ∧ ("llama".data).length = WORD_LEN ∧
      ("allot".data).length = WORD_LEN ∧ ("llama".data).all Char.isAlpha = true ∧
      ("allot".data).all Char.isAlpha = true) ∧
    (feedback "allot".data "allot".data = List.replicate WORD_LEN Mark.G ∧
      gyCount "llama".data (feedback "llama".data "allot".data) 'l' =
        min ("llama".data.count 'l') ("allot".data.count 'l') ∧
      ((feedback "llama".data "allot".data)[0]? = some Mark.G ↔
        ("llama".data)[0]? = ("allot".data)[0]?)) :=
  ⟨⟨by decide, by decide, by decide, by decide, by decide⟩,
    feedback_engine_spec "llama".data "allot".data 'l' 0 (by decide) (by decide)
      (by decide) (by decide) (by decide)⟩

end WordRace
